import Mathlib

/-!
Shallow embedding of the `paper-renamer` program for specification checking.

Rust `String` values are modelled as `List Char`.  Unicode-dependent character
classes and case mapping (`char::is_alphanumeric`, `str::to_lowercase`,
`char::is_whitespace`, `str::trim`) are modelled with Lean's ASCII-level
`Char.isAlphanum`, `Char.toLower` and `Char.isWhitespace`, which agree with
the corresponding Rust functions on the ASCII range.
-/

namespace PaperRenamer

/-- From `src/llm.rs`: `PaperMetadata` (all three fields are Rust `String`s). -/
structure PaperMetadata where
  first_author : List Char
  year : List Char
  title : List Char

/-- Rust `str::replace(a, b)` for a single-character pattern and a
single-character replacement, as used in `sanitize` (`src/filename.rs`). -/
def replaceChar (a b : Char) (s : List Char) : List Char :=
  s.map fun c => if c = a then b else c

/-- The character filter of `sanitize` (`src/filename.rs`):
`c.is_alphanumeric() || *c == '-'`. -/
def keepChar (c : Char) : Bool := c.isAlphanum || c = '-'

/-- From `src/filename.rs`, `sanitize`: lowercase the string, replace spaces and
underscores with dashes, keep only alphanumerics and dashes, then
`split('-')`, drop the empty fragments and `join("-")`. -/
def sanitize (s : List Char) : List Char :=
  List.intercalate ['-']
    ((((replaceChar '_' '-' (replaceChar ' ' '-' (s.map Char.toLower))).filter
        keepChar).splitOn '-').filter fun p => !p.isEmpty)

/-- The characters of the required extension `".pdf"`. -/
def pdfExt : List Char := ['.', 'p', 'd', 'f']

/-- From `src/filename.rs`, `generate_filename`:
`format!("{}-{}-{}.pdf", sanitize(author), sanitize(year), sanitize(title))`. -/
def generate_filename (m : PaperMetadata) : List Char :=
  sanitize m.first_author ++ ['-'] ++ sanitize m.year ++ ['-'] ++ sanitize m.title ++ pdfExt

/-- From `src/filename.rs`, `validate_filename`: reject `".."`, `'/'`, `'\'`,
the empty string, and anything not ending in `".pdf"`. -/
def validate_filename (f : List Char) : Bool :=
  !(decide (['.', '.'] <:+: f)) && !(f.contains '/') && !(f.contains '\\')
    && !f.isEmpty && pdfExt.isSuffixOf f

/-- Spec §4.1, "collapse any run of consecutive dashes into a single dash",
written as a direct one-pass recursion over the characters. -/
def collapseDashes : List Char → List Char
  | [] => []
  | [c] => [c]
  | c :: d :: t =>
    if c = '-' && d = '-' then collapseDashes (d :: t) else c :: collapseDashes (d :: t)

/-- Spec §4.1, "trim leading/trailing dashes". -/
def trimDashes (l : List Char) : List Char :=
  (((l.dropWhile fun c => c = '-').reverse.dropWhile fun c => c = '-')).reverse

/-- The spec's reference sanitization rule (§4.1), word by word: lowercase the
string; replace whitespace and underscore characters with the dash character;
drop every character that is not alphanumeric or a dash; collapse any run of
consecutive dashes into a single dash; trim leading/trailing dashes. -/
def sanitizeSpecRule (s : List Char) : List Char :=
  trimDashes (collapseDashes
    (((s.map Char.toLower).map fun c =>
        if c.isWhitespace || c = '_' then '-' else c).filter keepChar))

/-- The spec's rule amended to match the code: only the space character
(not every whitespace character) and the underscore are replaced by a dash;
the remaining whitespace characters fall through to the
"drop every character that is not alphanumeric or a dash" step. -/
def sanitizeSpecAmended (s : List Char) : List Char :=
  trimDashes (collapseDashes
    (((s.map Char.toLower).map fun c =>
        if c = ' ' || c = '_' then '-' else c).filter keepChar))

example : sanitizeSpecRule ['a', '\t', 'b'] = ['a', '-', 'b'] := by decide
example : sanitize ['a', '\t', 'b'] = ['a', 'b'] := by decide
example : sanitizeSpecAmended ['a', '\t', 'b'] = ['a', 'b'] := by decide
example :
    generate_filename
      ⟨"Vaswani".toList, "2017".toList, "Attention Is All You Need".toList⟩ =
      "vaswani-2017-attention-is-all-you-need.pdf".toList := by decide

example : sanitize "Hello World".toList = "hello-world".toList := by decide
example : sanitize "Test_File-Name".toList = "test-file-name".toList := by decide
example : sanitize "Multiple   Spaces".toList = "multiple-spaces".toList := by decide
example : sanitize "Special!@#$%Chars".toList = "specialchars".toList := by decide
example : validate_filename "valid-filename.pdf".toList = true := by decide
example : validate_filename "../etc/passwd.pdf".toList = false := by decide
example : validate_filename "no-extension".toList = false := by decide
example : validate_filename [] = false := by decide

/-! ### Equivalence of the code's split/filter/join with collapse-and-trim -/

/-- Rejoin a list of dash-separated fragments, dropping the empty ones
(the tail of the `sanitize` pipeline, starting from the fragment list). -/
def joinFrags (ps : List (List Char)) : List Char :=
  List.intercalate ['-'] (ps.filter fun p => !p.isEmpty)

/-- The tail of the `sanitize` pipeline: split on dashes, drop empty
fragments, rejoin with single dashes. -/
def gJoin (l : List Char) : List Char := joinFrags (l.splitOn '-')

/-- Variant of `gJoin` that keeps a leading empty fragment's worth of
separator: the shape of `gJoin` on a list continuing a non-dash character. -/
def gMid (l : List Char) : List Char :=
  match l.splitOn '-' with
  | [] => []
  | p :: ps => p ++ (if joinFrags ps = [] then [] else '-' :: joinFrags ps)

/-- Trimming only the trailing dashes. -/
def trimRight (l : List Char) : List Char :=
  (l.reverse.dropWhile fun c => c = '-').reverse

theorem intercalate_dash_cons (p : List Char) (qs : List (List Char)) :
    List.intercalate ['-'] (p :: qs) =
      p ++ (if qs = [] then [] else '-' :: List.intercalate ['-'] qs) := by
  cases qs with
  | nil => simp [List.intercalate]
  | cons q qs' => simp [List.intercalate, List.intersperse_cons_cons]

theorem joinFrags_nil : joinFrags [] = [] := rfl

theorem joinFrags_nil_cons (ps : List (List Char)) :
    joinFrags ([] :: ps) = joinFrags ps := by
  simp [joinFrags]

theorem joinFrags_eq_nil_iff (ps : List (List Char)) :
    joinFrags ps = [] ↔ ps.filter (fun p => !p.isEmpty) = [] := by
  constructor
  · intro h
    by_contra hne
    obtain ⟨q, qs, hq⟩ : ∃ q qs, ps.filter (fun p => !p.isEmpty) = q :: qs := by
      cases hf : ps.filter (fun p => !p.isEmpty) with
      | nil => exact absurd hf hne
      | cons q qs => exact ⟨q, qs, rfl⟩
    have hqne : q ≠ [] := by
      have hmem : q ∈ ps.filter (fun p => !p.isEmpty) := by simp [hq]
      have := List.of_mem_filter hmem
      simpa [List.isEmpty_iff] using this
    rw [joinFrags, hq, intercalate_dash_cons] at h
    rcases List.append_eq_nil.mp h with ⟨h1, _⟩
    exact hqne h1
  · intro h
    rw [joinFrags, h]
    rfl

theorem joinFrags_cons (p : List Char) (ps : List (List Char)) (hp : p ≠ []) :
    joinFrags (p :: ps) =
      p ++ (if joinFrags ps = [] then [] else '-' :: joinFrags ps) := by
  rw [joinFrags, List.filter_cons_of_pos (by simpa [List.isEmpty_iff] using hp),
    intercalate_dash_cons]
  by_cases h : joinFrags ps = []
  · rw [if_pos ((joinFrags_eq_nil_iff ps).mp h), if_pos h]
  · rw [if_neg (fun hf => h ((joinFrags_eq_nil_iff ps).mpr hf)), if_neg h]
    rfl

theorem splitOn_dash_cons (t : List Char) :
    ('-' :: t).splitOn '-' = [] :: t.splitOn '-' := by
  simp [List.splitOn, List.splitOnP_cons]

theorem splitOn_cons_of_ne (c : Char) (t : List Char) (hc : c ≠ '-') :
    (c :: t).splitOn '-' = (t.splitOn '-').modifyHead (c :: ·) := by
  simp [List.splitOn, List.splitOnP_cons, hc]

theorem splitOn_exists_cons (t : List Char) :
    ∃ p ps, t.splitOn '-' = p :: ps := by
  cases h : t.splitOn '-' with
  | nil => exact absurd h (List.splitOnP_ne_nil _ t)
  | cons p ps => exact ⟨p, ps, rfl⟩

theorem gJoin_nil : gJoin [] = [] := rfl

theorem gJoin_dash_cons (t : List Char) : gJoin ('-' :: t) = gJoin t := by
  rw [gJoin, splitOn_dash_cons, joinFrags_nil_cons]
  rfl

theorem gMid_nil : gMid [] = [] := rfl

theorem gMid_dash_cons (t : List Char) :
    gMid ('-' :: t) = if gJoin t = [] then [] else '-' :: gJoin t := by
  rw [gMid, splitOn_dash_cons]
  rfl

theorem gMid_cons_of_ne (c : Char) (t : List Char) (hc : c ≠ '-') :
    gMid (c :: t) = c :: gMid t := by
  obtain ⟨p, ps, h⟩ := splitOn_exists_cons t
  rw [gMid, splitOn_cons_of_ne c t hc, h, List.modifyHead_cons, gMid, h]
  rfl

theorem gJoin_cons_of_ne (c : Char) (t : List Char) (hc : c ≠ '-') :
    gJoin (c :: t) = c :: gMid t := by
  obtain ⟨p, ps, h⟩ := splitOn_exists_cons t
  rw [gJoin, splitOn_cons_of_ne c t hc, h, List.modifyHead_cons,
    joinFrags_cons (c :: p) ps (List.cons_ne_nil c p), gMid, h]
  rfl

theorem trimRight_nil : trimRight [] = [] := rfl

theorem trimRight_cons (c : Char) (t : List Char) :
    trimRight (c :: t) =
      if trimRight t = [] then (if c = '-' then [] else [c]) else c :: trimRight t := by
  rw [trimRight, List.reverse_cons, List.dropWhile_append]
  by_cases h : (t.reverse.dropWhile fun c => c = '-').isEmpty
  · rw [if_pos h]
    have ht : trimRight t = [] := by
      rw [trimRight, List.isEmpty_iff.mp h]
      rfl
    rw [if_pos ht]
    by_cases hc : c = '-'
    · simp [hc]
    · simp [hc]
  · rw [if_neg h]
    have ht : trimRight t ≠ [] := by
      rw [trimRight]
      simp only [ne_eq, List.reverse_eq_nil_iff]
      exact fun hf => h (by rw [hf]; rfl)
    rw [if_neg ht, List.reverse_append, trimRight]
    rfl

theorem collapseDashes_cons_of_ne (c : Char) (t : List Char) (hc : c ≠ '-') :
    collapseDashes (c :: t) = c :: collapseDashes t := by
  cases t with
  | nil => rfl
  | cons d t2 => simp [collapseDashes, hc]

theorem collapseDashes_dash_dash (t : List Char) :
    collapseDashes ('-' :: '-' :: t) = collapseDashes ('-' :: t) := by
  simp [collapseDashes]

theorem collapseDashes_dash_cons_of_ne (d : Char) (t : List Char) (hd : d ≠ '-') :
    collapseDashes ('-' :: d :: t) = '-' :: collapseDashes (d :: t) := by
  simp [collapseDashes, hd]

theorem trimRight_collapse_eq_gMid (l : List Char) :
    trimRight (collapseDashes l) = gMid l := by
  have H : ∀ n, ∀ l : List Char, l.length ≤ n → trimRight (collapseDashes l) = gMid l := by
    intro n
    induction n with
    | zero =>
      intro l hl
      rw [List.length_eq_zero.mp (Nat.le_zero.mp hl)]
      rfl
    | succ n ih =>
      intro l hl
      match l with
      | [] => rfl
      | c :: t =>
        by_cases hc : c = '-'
        · subst hc
          match t with
          | [] => decide
          | d :: t2 =>
            by_cases hd : d = '-'
            · subst hd
              rw [collapseDashes_dash_dash,
                ih ('-' :: t2) (by simpa using Nat.le_of_succ_le_succ hl),
                gMid_dash_cons, gMid_dash_cons, gJoin_dash_cons]
            · rw [collapseDashes_dash_cons_of_ne d t2 hd,
                collapseDashes_cons_of_ne d t2 hd, trimRight_cons, trimRight_cons]
              have ht2 : trimRight (collapseDashes t2) = gMid t2 := by
                have : t2.length ≤ n := by
                  have := Nat.le_of_succ_le_succ hl
                  simp only [List.length_cons] at this
                  omega
                exact ih t2 this
              rw [ht2, gMid_dash_cons, gJoin_cons_of_ne d t2 hd]
              by_cases h0 : gMid t2 = [] <;> simp [h0, hd]
        · rw [collapseDashes_cons_of_ne c t hc, trimRight_cons,
            ih t (by simpa using Nat.le_of_succ_le_succ hl), gMid_cons_of_ne c t hc]
          by_cases h0 : gMid t = []
          · rw [if_pos h0, if_neg hc, h0]
          · rw [if_neg h0]
  exact H l.length l (Nat.le_refl _)

theorem trimDashes_eq_trimRight_dropWhile (l : List Char) :
    trimDashes l = trimRight (l.dropWhile fun c => c = '-') := rfl

theorem trim_collapse_eq_gJoin (l : List Char) :
    trimDashes (collapseDashes l) = gJoin l := by
  have H : ∀ n, ∀ l : List Char, l.length ≤ n → trimDashes (collapseDashes l) = gJoin l := by
    intro n
    induction n with
    | zero =>
      intro l hl
      rw [List.length_eq_zero.mp (Nat.le_zero.mp hl)]
      rfl
    | succ n ih =>
      intro l hl
      match l with
      | [] => rfl
      | c :: t =>
        by_cases hc : c = '-'
        · subst hc
          match t with
          | [] => decide
          | d :: t2 =>
            by_cases hd : d = '-'
            · subst hd
              rw [collapseDashes_dash_dash,
                ih ('-' :: t2) (by simpa using Nat.le_of_succ_le_succ hl)]
              simp [gJoin_dash_cons]
            · rw [collapseDashes_dash_cons_of_ne d t2 hd,
                collapseDashes_cons_of_ne d t2 hd,
                trimDashes_eq_trimRight_dropWhile,
                List.dropWhile_cons_of_pos (by simp),
                List.dropWhile_cons_of_neg (by simpa using hd),
                trimRight_cons, trimRight_collapse_eq_gMid t2,
                gJoin_dash_cons, gJoin_cons_of_ne d t2 hd]
              by_cases h0 : gMid t2 = []
              · rw [if_pos h0, if_neg hd, h0]
              · rw [if_neg h0]
        · rw [collapseDashes_cons_of_ne c t hc,
            trimDashes_eq_trimRight_dropWhile,
            List.dropWhile_cons_of_neg (by simpa using hc),
            trimRight_cons, trimRight_collapse_eq_gMid t,
            gJoin_cons_of_ne c t hc]
          by_cases h0 : gMid t = []
          · rw [if_pos h0, if_neg hc, h0]
          · rw [if_neg h0]
  exact H l.length l (Nat.le_refl _)

theorem replace_replace_eq_map (s : List Char) :
    replaceChar '_' '-' (replaceChar ' ' '-' s) =
      s.map fun c => if c = ' ' || c = '_' then '-' else c := by
  rw [replaceChar, replaceChar, List.map_map]
  refine List.map_congr_left fun c _ => ?_
  by_cases h1 : c = ' '
  · simp [h1]
  · by_cases h2 : c = '_' <;> simp [h1, h2]

theorem sanitize_eq_sanitizeSpecAmended (s : List Char) :
    sanitize s = sanitizeSpecAmended s := by
  rw [sanitizeSpecAmended, trim_collapse_eq_gJoin, sanitize, replace_replace_eq_map]
  rfl

/-! ### Characters surviving sanitization, and idempotence -/

theorem toNat_char_ofNat_of_valid (n : Nat) (h : n.isValidChar) :
    (Char.ofNat n).toNat = n := by
  rw [Char.ofNat, dif_pos h]
  rfl

theorem toLower_toLower (c : Char) : c.toLower.toLower = c.toLower := by
  by_cases h : c.toNat ≥ 65 ∧ c.toNat ≤ 90
  · have h1 : c.toLower = Char.ofNat (c.toNat + 32) := by
      rw [Char.toLower, if_pos h]
    have hv : (c.toNat + 32).isValidChar := Or.inl (by omega)
    have h2 : (Char.ofNat (c.toNat + 32)).toNat = c.toNat + 32 :=
      toNat_char_ofNat_of_valid _ hv
    rw [h1, Char.toLower, h2, if_neg (by omega)]
  · have h1 : c.toLower = c := by rw [Char.toLower, if_neg h]
    rw [h1, h1]

theorem mem_of_mem_splitOnP {pr : Char → Bool} :
    ∀ {l seg : List Char}, seg ∈ l.splitOnP pr → ∀ {x}, x ∈ seg →
      x ∈ l ∧ pr x = false := by
  intro l
  induction l with
  | nil =>
    intro seg hseg x hx
    rw [List.splitOnP_nil, List.mem_singleton] at hseg
    subst hseg
    exact absurd hx (List.not_mem_nil x)
  | cons a t ih =>
    intro seg hseg x hx
    rw [List.splitOnP_cons] at hseg
    by_cases ha : pr a
    · rw [if_pos ha] at hseg
      rcases List.mem_cons.mp hseg with h | h
      · subst h
        exact absurd hx (List.not_mem_nil x)
      · have hr := ih h hx
        exact ⟨List.mem_cons_of_mem a hr.1, hr.2⟩
    · rw [if_neg ha] at hseg
      obtain ⟨p, ps, hsplit⟩ : ∃ p ps, t.splitOnP pr = p :: ps := by
        cases hs : t.splitOnP pr with
        | nil => exact absurd hs (List.splitOnP_ne_nil pr t)
        | cons p ps => exact ⟨p, ps, rfl⟩
      rw [hsplit, List.modifyHead_cons] at hseg
      rcases List.mem_cons.mp hseg with h | h
      · subst h
        rcases List.mem_cons.mp hx with hxa | hxp
        · subst hxa
          exact ⟨List.mem_cons_self x t, by simpa using ha⟩
        · have hpmem : p ∈ t.splitOnP pr := by
            rw [hsplit]
            exact List.mem_cons_self p ps
          have hr := ih hpmem hxp
          exact ⟨List.mem_cons_of_mem a hr.1, hr.2⟩
      · have hsmem : seg ∈ t.splitOnP pr := by
          rw [hsplit]
          exact List.mem_cons_of_mem p h
        have hr := ih hsmem hx
        exact ⟨List.mem_cons_of_mem a hr.1, hr.2⟩

theorem mem_of_mem_intersperse {α : Type} {sep a : α} :
    ∀ l : List α, a ∈ List.intersperse sep l → a = sep ∨ a ∈ l
  | [], h => absurd h (List.not_mem_nil a)
  | [b], h => Or.inr (by simpa using h)
  | b :: c :: t, h => by
    rw [List.intersperse_cons_cons] at h
    rcases List.mem_cons.mp h with h1 | h1
    · exact Or.inr (by simp [h1])
    · rcases List.mem_cons.mp h1 with h2 | h2
      · exact Or.inl h2
      · rcases mem_of_mem_intersperse (c :: t) h2 with h3 | h3
        · exact Or.inl h3
        · exact Or.inr (List.mem_cons_of_mem b h3)

theorem mem_of_mem_intercalate_dash {x : Char} {ps : List (List Char)}
    (h : x ∈ List.intercalate ['-'] ps) : x = '-' ∨ ∃ p ∈ ps, x ∈ p := by
  rw [List.intercalate] at h
  rcases List.mem_flatten.mp h with ⟨l, hl, hxl⟩
  rcases mem_of_mem_intersperse _ hl with h1 | h1
  · subst h1
    exact Or.inl (by simpa using hxl)
  · exact Or.inr ⟨l, h1, hxl⟩

/-- The `sanitize` pipeline up to and including the character filter. -/
def sanitizeChars (s : List Char) : List Char :=
  (replaceChar '_' '-' (replaceChar ' ' '-' (s.map Char.toLower))).filter keepChar

theorem sanitize_eq_gJoin_sanitizeChars (s : List Char) :
    sanitize s = gJoin (sanitizeChars s) := rfl

theorem mem_sanitizeChars {x : Char} {s : List Char} (h : x ∈ sanitizeChars s) :
    keepChar x = true ∧ x.toLower = x := by
  rw [sanitizeChars] at h
  have hk : keepChar x = true := List.of_mem_filter h
  have hm : x ∈ replaceChar '_' '-' (replaceChar ' ' '-' (s.map Char.toLower)) :=
    List.mem_of_mem_filter h
  refine ⟨hk, ?_⟩
  rw [replaceChar] at hm
  rcases List.mem_map.mp hm with ⟨z, hz, hxz⟩
  by_cases hzu : z = '_'
  · rw [← hxz, if_pos hzu]
    decide
  · rw [if_neg hzu] at hxz
    subst hxz
    rw [replaceChar] at hz
    rcases List.mem_map.mp hz with ⟨w, hw, hzw⟩
    by_cases hws : w = ' '
    · rw [← hzw, if_pos hws]
      decide
    · rw [if_neg hws] at hzw
      subst hzw
      rcases List.mem_map.mp hw with ⟨v, _, hvw⟩
      rw [← hvw]
      exact toLower_toLower v

theorem mem_sanitize {x : Char} {s : List Char} (h : x ∈ sanitize s) :
    keepChar x = true ∧ x.toLower = x := by
  rw [sanitize_eq_gJoin_sanitizeChars, gJoin, joinFrags] at h
  rcases mem_of_mem_intercalate_dash h with h1 | h1
  · subst h1
    exact ⟨by decide, by decide⟩
  · rcases h1 with ⟨p, hp, hxp⟩
    have hp2 : p ∈ (sanitizeChars s).splitOn '-' := List.mem_of_mem_filter hp
    rw [List.splitOn] at hp2
    exact mem_sanitizeChars (mem_of_mem_splitOnP hp2 hxp).1

theorem not_dash_mem_of_mem_sanitize_frag {p : List Char} {s : List Char}
    (hp : p ∈ ((sanitizeChars s).splitOn '-').filter fun q => !q.isEmpty) :
    '-' ∉ p := by
  intro hd
  have hp2 : p ∈ (sanitizeChars s).splitOn '-' := List.mem_of_mem_filter hp
  rw [List.splitOn] at hp2
  have := (mem_of_mem_splitOnP hp2 hd).2
  simp at this

theorem sanitizeChars_sanitize (s : List Char) :
    sanitizeChars (sanitize s) = sanitize s := by
  have hchars := fun x (hx : x ∈ sanitize s) => mem_sanitize hx
  have h1 : (sanitize s).map Char.toLower = sanitize s := by
    have := List.map_congr_left (fun x hx => (hchars x hx).2)
    rw [this, List.map_id']
  have h2 : replaceChar ' ' '-' (sanitize s) = sanitize s := by
    rw [replaceChar]
    refine List.map_congr_left (fun x hx => ?_) |>.trans (List.map_id _)
    have hk := (hchars x hx).1
    have hne : x ≠ ' ' := by
      intro he
      rw [he] at hk
      exact absurd hk (by decide)
    simp [hne]
  have h3 : replaceChar '_' '-' (sanitize s) = sanitize s := by
    rw [replaceChar]
    refine List.map_congr_left (fun x hx => ?_) |>.trans (List.map_id _)
    have hk := (hchars x hx).1
    have hne : x ≠ '_' := by
      intro he
      rw [he] at hk
      exact absurd hk (by decide)
    simp [hne]
  have h4 : (sanitize s).filter keepChar = sanitize s :=
    List.filter_eq_self.mpr fun a ha => (hchars a ha).1
  rw [sanitizeChars, h1, h2, h3, h4]

theorem gJoin_sanitize (s : List Char) : gJoin (sanitize s) = sanitize s := by
  have hP : sanitize s =
      List.intercalate ['-'] (((sanitizeChars s).splitOn '-').filter fun q => !q.isEmpty) :=
    rfl
  cases hcase : ((sanitizeChars s).splitOn '-').filter fun q => !q.isEmpty with
  | nil =>
    rw [gJoin, joinFrags, hP, hcase]
    rfl
  | cons p ps =>
    have hnd : ∀ l ∈ ((sanitizeChars s).splitOn '-').filter (fun q => !q.isEmpty), '-' ∉ l :=
      fun l hl => not_dash_mem_of_mem_sanitize_frag hl
    have hne : ((sanitizeChars s).splitOn '-').filter (fun q => !q.isEmpty) ≠ [] := by
      rw [hcase]
      exact List.cons_ne_nil p ps
    have hsplit :=
      List.splitOn_intercalate (((sanitizeChars s).splitOn '-').filter fun q => !q.isEmpty)
        '-' hnd hne
    have hfilter :
        ((((sanitizeChars s).splitOn '-').filter fun q => !q.isEmpty).filter
            fun q => !q.isEmpty) =
          ((sanitizeChars s).splitOn '-').filter fun q => !q.isEmpty := by
      refine List.filter_eq_self.mpr fun a ha => ?_
      exact List.of_mem_filter (p := fun q : List Char => !q.isEmpty) ha
    rw [gJoin, joinFrags, hP, hsplit, hfilter]

/-! ### Claim theorems for the filename builder -/

/-- Claim C1, counterexample: the spec's reference rule replaces *every*
whitespace character with a dash, but the code's `sanitize` only replaces the
space character; a tab is dropped by the alphanumeric filter instead, so on
`"a\tb"` the code yields `"ab"` while the spec's rule yields `"a-b"`. -/
theorem sanitize_whitespace_counterexample :
    sanitize ['a', '\t', 'b'] = ['a', 'b'] ∧
      sanitizeSpecRule ['a', '\t', 'b'] = ['a', '-', 'b'] ∧
      sanitize ['a', '\t', 'b'] ≠ sanitizeSpecRule ['a', '\t', 'b'] :=
  ⟨by decide, by decide, by decide⟩

/-- Claim C1, amended: for every input string, `sanitize` equals the spec's
reference rule amended to replace only the space character (not every
whitespace character) and the underscore with a dash, other whitespace being
dropped by the alphanumeric filter; and the two concrete examples
`sanitize("Multiple   Spaces") = "multiple-spaces"` and
`sanitize("Special!@#$%Chars") = "specialchars"` hold. -/
theorem sanitize_matches_amended_spec_rule :
    (∀ s : List Char, sanitize s = sanitizeSpecAmended s) ∧
      sanitize "Multiple   Spaces".toList = "multiple-spaces".toList ∧
      sanitize "Special!@#$%Chars".toList = "specialchars".toList :=
  ⟨sanitize_eq_sanitizeSpecAmended, by decide, by decide⟩

/-- Claim C2: sanitization is idempotent: `sanitize (sanitize s) = sanitize s`
for every string `s`. -/
theorem sanitize_idempotent (s : List Char) :
    sanitize (sanitize s) = sanitize s := by
  rw [sanitize_eq_gJoin_sanitizeChars (sanitize s), sanitizeChars_sanitize,
    gJoin_sanitize]

/-- Claim C4: on the metadata with first author `"Vaswani"`, year `"2017"`, and
title `"Attention Is All You Need"`, `generate_filename` returns exactly
`"vaswani-2017-attention-is-all-you-need.pdf"`. -/
theorem generate_filename_vaswani :
    generate_filename
        ⟨"Vaswani".toList, "2017".toList, "Attention Is All You Need".toList⟩ =
      "vaswani-2017-attention-is-all-you-need.pdf".toList := by
  decide

theorem contains_eq_true_iff_mem {a : Char} {l : List Char} :
    l.contains a = true ↔ a ∈ l := by
  show List.elem a l = true ↔ a ∈ l
  exact List.elem_iff

theorem validate_filename_eq_true_iff (f : List Char) :
    validate_filename f = true ↔
      ¬ ['.', '.'] <:+: f ∧ '/' ∉ f ∧ '\\' ∉ f ∧ f ≠ [] ∧ pdfExt <:+ f := by
  rw [validate_filename]
  simp only [Bool.and_eq_true, Bool.not_eq_true', decide_eq_false_iff_not,
    List.isSuffixOf_iff_suffix, Bool.eq_false_iff, Ne, contains_eq_true_iff_mem,
    List.isEmpty_iff, decide_eq_true_eq, and_assoc]

/-- Claim C3: `validate_filename` returns `false` exactly when the string
contains `".."`, contains `'/'`, contains `'\'`, is empty, or does not end
with `".pdf"`. -/
theorem validate_filename_spec (f : List Char) :
    validate_filename f = false ↔
      ['.', '.'] <:+: f ∨ '/' ∈ f ∨ '\\' ∈ f ∨ f = [] ∨ ¬ pdfExt <:+ f := by
  rw [Bool.eq_false_iff, Ne, validate_filename_eq_true_iff]
  tauto

theorem mem_generate_filename {c : Char} {m : PaperMetadata}
    (h : c ∈ generate_filename m) :
    keepChar c = true ∨ c ∈ pdfExt := by
  rw [generate_filename] at h
  simp only [List.mem_append, List.mem_singleton] at h
  rcases h with ((((h | h) | h) | h) | h) | h
  · exact Or.inl (mem_sanitize h).1
  · subst h
    exact Or.inl (by decide)
  · exact Or.inl (mem_sanitize h).1
  · subst h
    exact Or.inl (by decide)
  · exact Or.inl (mem_sanitize h).1
  · exact Or.inr h

/-- Claim C5: every filename produced by `generate_filename` passes
`validate_filename`, for arbitrary metadata fields. -/
theorem generate_filename_valid (m : PaperMetadata) :
    validate_filename (generate_filename m) = true := by
  refine (validate_filename_eq_true_iff _).mpr ⟨?_, ?_, ?_, ?_, ?_⟩
  · intro h
    have hcle := h.count_le '.'
    have hsan : ∀ s : List Char, (sanitize s).count '.' = 0 := by
      intro s
      rw [List.count_eq_zero]
      intro hmem
      exact absurd (mem_sanitize hmem).1 (by decide)
    rw [generate_filename] at hcle
    simp only [List.count_append, hsan] at hcle
    have e0 : (['.', '.'] : List Char).count '.' = 2 := by decide
    have e1 : (['-'] : List Char).count '.' = 0 := by decide
    have e2 : pdfExt.count '.' = 1 := by decide
    rw [e0, e1, e2] at hcle
    omega
  · intro h
    rcases mem_generate_filename h with hk | hp
    · exact absurd hk (by decide)
    · exact absurd hp (by decide)
  · intro h
    rcases mem_generate_filename h with hk | hp
    · exact absurd hk (by decide)
    · exact absurd hp (by decide)
  · rw [generate_filename]
    exact List.append_ne_nil_of_right_ne_nil _ (by decide)
  · rw [generate_filename]
    exact List.suffix_append _ _

/-! ### The confirmation loop (`src/main.rs`) and terminal choices (`src/ui.rs`) -/

/-- From `src/ui.rs`: the `UserChoice` enum returned by `confirm_rename`. -/
inductive UserChoice
  | yes
  | no
  | edit
  | editAuthor
  | editYear
  | editTitle
deriving DecidableEq

/-- From `src/ui.rs`, `confirm_rename`: the selected menu index is mapped to a
`UserChoice` (`0` to `5`); any other index is `unreachable!`. -/
def selectionToChoice (i : Nat) : Option UserChoice :=
  match i with
  | 0 => some .yes
  | 1 => some .no
  | 2 => some .edit
  | 3 => some .editAuthor
  | 4 => some .editYear
  | 5 => some .editTitle
  | _ => none

/-- Which `UserChoice` values have a match arm in the confirmation loop of
`run` (`src/main.rs`): the `match choice` there has arms only for `Yes`,
`No` and `Edit`; the three single-field edit variants are not handled. -/
def loopHandles (c : UserChoice) : Bool :=
  match c with
  | .yes => true
  | .no => true
  | .edit => true
  | .editAuthor => false
  | .editYear => false
  | .editTitle => false

/-- From `src/main.rs`: after `ui::edit_filename` returns, `".pdf"` is appended
whenever the edited string does not already end with it. -/
def appendPdf (s : List Char) : List Char :=
  if pdfExt.isSuffixOf s then s else s ++ pdfExt

/-- One scripted user interaction with the confirmation loop: the choice
picked at the menu and, for `Edit`, the text returned by
`ui::edit_filename`. -/
inductive LoopInput
  | yes
  | no
  | edit (s : List Char)

/-- Result of running the confirmation loop on a finite script. -/
inductive LoopOutcome
  | accepted (finalName : List Char)
  | cancelled
  | pending (current : List Char)
deriving DecidableEq

/-- Observable trace of the confirmation loop: its outcome, the candidate
filename shown at the top of each iteration (the `Proposed` states), and
every filename passed to `renamer::rename_file`. -/
structure LoopTrace where
  outcome : LoopOutcome
  prompts : List (List Char)
  renames : List (List Char)
deriving DecidableEq

/-- The confirmation loop of `run` (`src/main.rs`), driven by a script of
user inputs.  `Yes` re-validates the candidate: on failure an error is shown
and the loop continues with the same candidate; on success the rename is
attempted and the loop breaks.  `No` cancels and breaks.  `Edit` replaces
the candidate with the edited text (appending `".pdf"` when missing) and
re-enters the loop.  An exhausted script leaves the loop at its prompt. -/
def runConfirmLoop (proposed : List Char) : List LoopInput → LoopTrace
  | [] => ⟨.pending proposed, [proposed], []⟩
  | .yes :: rest =>
    if validate_filename proposed then
      ⟨.accepted proposed, [proposed], [proposed]⟩
    else
      let t := runConfirmLoop proposed rest
      ⟨t.outcome, proposed :: t.prompts, t.renames⟩
  | .no :: _ => ⟨.cancelled, [proposed], []⟩
  | .edit s :: rest =>
    let t := runConfirmLoop (appendPdf s) rest
    ⟨t.outcome, proposed :: t.prompts, t.renames⟩

example :
    runConfirmLoop ['a'] [LoopInput.edit ['b'], LoopInput.yes] =
      ⟨.accepted ('b' :: pdfExt), [['a'], 'b' :: pdfExt], ['b' :: pdfExt]⟩ := by
  decide

/-- Claim C6: the rename is only ever attempted on candidates that pass
`validate_filename`, and accepting an invalid candidate re-prompts (shows
the same `Proposed` state again, with the continuation deciding the
outcome) instead of terminating in `Cancelled`. -/
theorem confirm_loop_validates_before_rename (p : List Char) (s : List LoopInput) :
    (∀ n ∈ (runConfirmLoop p s).renames, validate_filename n = true) ∧
      (validate_filename p = false →
        (runConfirmLoop p (LoopInput.yes :: s)).outcome =
            (runConfirmLoop p s).outcome ∧
          (runConfirmLoop p (LoopInput.yes :: s)).prompts =
            p :: (runConfirmLoop p s).prompts) := by
  constructor
  · induction s generalizing p with
    | nil =>
      intro n hn
      simp [runConfirmLoop] at hn
    | cons i rest ih =>
      intro n hn
      match i with
      | .yes =>
        rw [runConfirmLoop] at hn
        by_cases hv : validate_filename p = true
        · simp only [hv, if_true] at hn
          simp only [List.mem_singleton] at hn
          subst hn
          exact hv
        · simp only [hv, if_false] at hn
          exact ih p n hn
      | .no =>
        simp [runConfirmLoop] at hn
      | .edit e =>
        rw [runConfirmLoop] at hn
        exact ih (appendPdf e) n hn
  · intro hv
    rw [runConfirmLoop, if_neg (by simp [hv])]
    exact ⟨rfl, rfl⟩

/-- Witness for the hypothesis of `confirm_loop_validates_before_rename`:
for the invalid candidate `"x"`, accepting re-prompts and leaves the loop
pending rather than cancelled. -/
theorem confirm_loop_validates_before_rename_witness :
    validate_filename ['x'] = false ∧
      (runConfirmLoop ['x'] [LoopInput.yes]).outcome = LoopOutcome.pending ['x'] := by
  refine ⟨by decide, ?_⟩
  have h := (confirm_loop_validates_before_rename ['x'] []).2 (by decide)
  rw [h.1]
  decide

/-- Claim C7, code-bug evidence: the UI menu maps indices `3`, `4`, `5` to the
three single-field edit choices, but the confirmation loop of `run` handles
none of them (its `match` has arms only for `Yes`, `No` and `Edit`). -/
theorem edit_field_choices_unhandled :
    selectionToChoice 3 = some UserChoice.editAuthor ∧
      selectionToChoice 4 = some UserChoice.editYear ∧
      selectionToChoice 5 = some UserChoice.editTitle ∧
      loopHandles UserChoice.editAuthor = false ∧
      loopHandles UserChoice.editYear = false ∧
      loopHandles UserChoice.editTitle = false := by
  decide

theorem appendPdf_suffix (s : List Char) : pdfExt.isSuffixOf (appendPdf s) = true := by
  rw [appendPdf]
  by_cases h : pdfExt.isSuffixOf s = true
  · rw [if_pos h]
    exact h
  · rw [if_neg (by simp [h])]
    simp [List.isSuffixOf_iff_suffix]

theorem prompts_pdf_suffix (s : List LoopInput) :
    ∀ p : List Char, pdfExt.isSuffixOf p = true →
      ∀ q ∈ (runConfirmLoop p s).prompts, pdfExt.isSuffixOf q = true := by
  induction s with
  | nil =>
    intro p hp q hq
    simp [runConfirmLoop] at hq
    subst hq
    exact hp
  | cons i rest ih =>
    intro p hp q hq
    match i with
    | .yes =>
      rw [runConfirmLoop] at hq
      by_cases hv : validate_filename p = true
      · simp only [hv, if_true] at hq
        simp only [List.mem_singleton] at hq
        subst hq
        exact hp
      · simp only [hv, if_false] at hq
        rcases List.mem_cons.mp hq with h | h
        · subst h
          exact hp
        · exact ih p hp q h
    | .no =>
      simp only [runConfirmLoop, List.mem_singleton] at hq
      subst hq
      exact hp
    | .edit e =>
      rw [runConfirmLoop] at hq
      rcases List.mem_cons.mp hq with h | h
      · subst h
        exact hp
      · exact ih (appendPdf e) (appendPdf_suffix e) q h

/-- Claim C10: the whole-filename edit transition always produces a candidate
ending in `".pdf"` (appending it when missing), and consequently every
candidate shown in a `Proposed` state of the loop started from
`generate_filename` ends in `".pdf"`. -/
theorem proposed_filename_pdf_invariant :
    (∀ s : List Char, pdfExt.isSuffixOf (appendPdf s) = true) ∧
      ∀ (m : PaperMetadata) (script : List LoopInput),
        ∀ q ∈ (runConfirmLoop (generate_filename m) script).prompts,
          pdfExt.isSuffixOf q = true := by
  refine ⟨appendPdf_suffix, fun m script => prompts_pdf_suffix script _ ?_⟩
  rw [List.isSuffixOf_iff_suffix, generate_filename]
  exact List.suffix_append _ _

/-! ### The filesystem rename (`src/renamer.rs`) -/

/-- Abstract filesystem state: the paths of the existing regular files and
of the existing directories. -/
structure FileSystem where
  files : List (List Char)
  dirs : List (List Char)
deriving DecidableEq

/-- Rust `Path::exists`. -/
def pathExists (fs : FileSystem) (p : List Char) : Bool :=
  fs.files.contains p || fs.dirs.contains p

/-- Rust `Path::is_file`. -/
def pathIsFile (fs : FileSystem) (p : List Char) : Bool :=
  fs.files.contains p

/-- Rust `Path::parent`, modelled for normalized paths (no trailing
separators): `none` for the empty path and for the root, otherwise the
prefix before the last separator (`""` for a bare filename, `"/"` when the
only separator is the leading one). -/
def pathParent (p : List Char) : Option (List Char) :=
  if p = [] ∨ p = ['/'] then none
  else if p.contains '/' then
    let pre := ((p.reverse.dropWhile fun c => c != '/').reverse).dropLast
    if pre = [] then some ['/'] else some pre
  else some []

/-- Rust `Path::join` for the shapes reachable here (the right operand
replaces the path when absolute). -/
def pathJoin (d f : List Char) : List Char :=
  if f.head? = some '/' then f
  else if d = [] then f
  else if d.getLast? = some '/' then d ++ f
  else d ++ '/' :: f

/-- The error returns of `rename_file` (`anyhow::bail!` sites plus the
`context` on a missing parent). -/
inductive RenameError
  | originalMissing
  | notAFile
  | noParent
  | targetExists
deriving DecidableEq

/-- From `src/renamer.rs`, `rename_file`, over the abstract filesystem: bail when
the original path does not exist or is not a file, compute the destination
as the original's parent directory joined with the new filename, bail when
the destination already exists, and otherwise perform `fs::rename` (the
original path is removed from the files and the destination added).  Every
`bail!` happens before `fs::rename`, so the state is returned unchanged on
every error path. -/
def rename_file (fs : FileSystem) (original_path new_filename : List Char) :
    Except RenameError (List Char) × FileSystem :=
  if !pathExists fs original_path then (.error .originalMissing, fs)
  else if !pathIsFile fs original_path then (.error .notAFile, fs)
  else
    match pathParent original_path with
    | none => (.error .noParent, fs)
    | some parent_dir =>
      let new_path := pathJoin parent_dir new_filename
      if pathExists fs new_path then (.error .targetExists, fs)
      else (.ok new_path, ⟨new_path :: fs.files.erase original_path, fs.dirs⟩)

example :
    rename_file ⟨["/a/x.pdf".toList], ["/a".toList]⟩ "/a/x.pdf".toList "y.pdf".toList =
      (.ok "/a/y.pdf".toList, ⟨["/a/y.pdf".toList], ["/a".toList]⟩) := rfl

/-- Claim C8: when the destination path (the source's directory joined with
the new filename) already exists, `rename_file` returns an error and leaves
the filesystem, and in particular the source file, unchanged. -/
theorem rename_file_refuses_existing_target
    (fs : FileSystem) (orig newf d : List Char)
    (hd : pathParent orig = some d)
    (hex : pathExists fs (pathJoin d newf) = true) :
    (∃ e, (rename_file fs orig newf).1 = Except.error e) ∧
      (rename_file fs orig newf).2 = fs := by
  rw [rename_file]
  by_cases h1 : pathExists fs orig = true
  · rw [if_neg (by simp [h1])]
    by_cases h2 : pathIsFile fs orig = true
    · rw [if_neg (by simp [h2]), hd]
      dsimp only
      rw [if_pos hex]
      exact ⟨⟨RenameError.targetExists, rfl⟩, rfl⟩
    · rw [if_pos (by simp [Bool.eq_false_iff.mpr h2])]
      exact ⟨⟨RenameError.notAFile, rfl⟩, rfl⟩
  · rw [if_pos (by simp [Bool.eq_false_iff.mpr h1])]
    exact ⟨⟨RenameError.originalMissing, rfl⟩, rfl⟩

/-- Witness for `rename_file_refuses_existing_target`: renaming
`/a/x.pdf` to `y.pdf` while `/a/y.pdf` exists fails and changes nothing. -/
theorem rename_file_refuses_existing_target_witness :
    (∃ e,
        (rename_file ⟨["/a/x.pdf".toList, "/a/y.pdf".toList], ["/a".toList]⟩
            "/a/x.pdf".toList "y.pdf".toList).1 = Except.error e) ∧
      (rename_file ⟨["/a/x.pdf".toList, "/a/y.pdf".toList], ["/a".toList]⟩
          "/a/x.pdf".toList "y.pdf".toList).2 =
        ⟨["/a/x.pdf".toList, "/a/y.pdf".toList], ["/a".toList]⟩ :=
  rename_file_refuses_existing_target _ _ _ ("/a".toList) (by decide) (by decide)

/-! ### PDF text extraction (`src/pdf.rs`) -/

/-- Byte length of a string under UTF-8 (Rust `str::len`). -/
def utf8Len (s : List Char) : Nat := (s.map Char.utf8Size).sum

/-- Rust string slicing `&text[..k]`: `some` of the characters occupying
the first `k` bytes when `k` is within bounds and a character boundary,
`none` (a panic) otherwise. -/
def byteSlice : List Char → Nat → Option (List Char)
  | s, k =>
    if k = 0 then some []
    else
      match s with
      | [] => none
      | c :: t =>
        if c.utf8Size ≤ k then (byteSlice t (k - c.utf8Size)).map (c :: ·) else none

/-- Rust `str::trim` (ASCII whitespace model). -/
def trimText (s : List Char) : List Char :=
  ((s.dropWhile Char.isWhitespace).reverse.dropWhile Char.isWhitespace).reverse

/-- The observable result of `extract_pdf_text`: a returned string, the
`anyhow` error for unextractable text, or a panic. -/
inductive ExtractResult
  | ok (text : List Char)
  | err
  | panicked
deriving DecidableEq

/-- From `src/pdf.rs`, `extract_pdf_text`, applied to the text produced by the
external `pdf_extract::extract_text` call: bails out when the trimmed text
is empty; returns the text whole when its byte length is at most 3000; and
otherwise returns the byte slice `&text[..3000]`, which panics when byte
offset 3000 is not a character boundary. -/
def extract_pdf_text (text : List Char) : ExtractResult :=
  if (trimText text).isEmpty then .err
  else if 3000 < utf8Len text then
    match byteSlice text 3000 with
    | some t => .ok t
    | none => .panicked
  else .ok text

theorem utf8Len_append (a b : List Char) :
    utf8Len (a ++ b) = utf8Len a + utf8Len b := by
  rw [utf8Len, utf8Len, utf8Len, List.map_append, List.sum_append]

theorem utf8Len_replicate_a (n : Nat) :
    utf8Len (List.replicate n 'a') = n := by
  induction n with
  | zero => rfl
  | succ n ih =>
    rw [List.replicate_succ, utf8Len, List.map_cons, List.sum_cons]
    rw [utf8Len] at ih
    rw [ih]
    have hsz : Char.utf8Size 'a' = 1 := by decide
    omega

theorem byteSlice_replicate_a (n k : Nat) (l : List Char) :
    byteSlice (List.replicate n 'a' ++ l) (n + k) =
      (byteSlice l k).map (List.replicate n 'a' ++ ·) := by
  induction n with
  | zero =>
    simp only [List.replicate_zero, List.nil_append, Nat.zero_add]
    cases byteSlice l k <;> simp
  | succ n ih =>
    rw [List.replicate_succ, List.cons_append]
    have harith : n + 1 + k = (n + k) + 1 := by omega
    rw [harith, byteSlice]
    rw [if_neg (by omega)]
    have hsz : Char.utf8Size 'a' = 1 := by decide
    rw [hsz, if_pos (by omega)]
    have harith2 : n + k + 1 - 1 = n + k := by omega
    rw [harith2, ih]
    cases byteSlice l k <;> simp [List.replicate_succ]

theorem dropWhile_ws_replicate_a_succ (n : Nat) (l : List Char) :
    List.dropWhile Char.isWhitespace (List.replicate (n + 1) 'a' ++ l) =
      List.replicate (n + 1) 'a' ++ l := by
  rw [List.replicate_succ, List.cons_append, List.dropWhile_cons_of_neg (by decide)]

theorem trimText_replicate_a_e (n : Nat) :
    trimText (List.replicate (n + 1) 'a' ++ ['é']) =
      List.replicate (n + 1) 'a' ++ ['é'] := by
  rw [trimText, dropWhile_ws_replicate_a_succ, List.reverse_append,
    List.reverse_replicate]
  rw [show (['é'] : List Char).reverse = ['é'] from rfl, List.singleton_append,
    List.dropWhile_cons_of_neg (by decide), List.reverse_cons,
    List.reverse_replicate]

/-- Claim C9, code-bug evidence: on an extracted text of 2999 `'a'`s followed
by `'é'` (3001 bytes, where byte offset 3000 falls inside the two-byte
encoding of `'é'`), `extract_pdf_text` panics instead of truncating
silently. -/
theorem extract_pdf_text_panics_mid_char :
    extract_pdf_text (List.replicate 2999 'a' ++ ['é']) = ExtractResult.panicked := by
  have hlen : utf8Len (List.replicate 2999 'a' ++ ['é']) = 3001 := by
    rw [utf8Len_append, utf8Len_replicate_a]
    decide
  have hslice : byteSlice (List.replicate 2999 'a' ++ ['é']) 3000 = none := by
    have h := byteSlice_replicate_a 2999 1 ['é']
    rw [show (3000 : Nat) = 2999 + 1 from by omega, h,
      show byteSlice ['é'] 1 = none from by decide]
    rfl
  have htrim : trimText (List.replicate 2999 'a' ++ ['é']) =
      List.replicate 2999 'a' ++ ['é'] := by
    rw [show (2999 : Nat) = 2998 + 1 from by omega]
    exact trimText_replicate_a_e 2998
  rw [extract_pdf_text, htrim,
    if_neg (by
      rw [List.isEmpty_iff]
      exact List.append_ne_nil_of_right_ne_nil _ (by decide)),
    if_pos (by rw [hlen]; omega), hslice]

end PaperRenamer
